import Mathlib

/-
Verification of lcelib/nets/Randomizer.H (degree-preserving graph
randomization: confModelSimple, switchLinkPairEnds, randomize).

The network is embedded as a symmetric weight function over node identifiers
(Nat), with weight 0 meaning "no edge", matching the EdgeData() sentinel of
the C++ container.  A symmetric assignment theNet[u][v] = w is embedded as
setW, which updates both orientations of the pair, matching the SymmNet
container semantics the code relies on.  Machine integers (size_t) become
Nat; weights become Int.

External collaborators that are not part of the source under verification
(the Dijkstrator probe, the random generator, ConnectivityCheck) are either
taken as oracle parameters or modelled from the specification; this is noted
at each such definition.
-/

namespace Randomizer

/-- Symmetric edge-weight assignment: theNet[u][v] = w on a symmetric
network container, which stores the value for both orientations. -/
def setW (f : Nat → Nat → Int) (u v : Nat) (w : Int) : Nat → Nat → Int :=
  fun a b => if (a = u ∧ b = v) ∨ (a = v ∧ b = u) then w else f a b

/-- The common shape of one accepted edge swap in Randomizer.H: add edge
(a,d) with weight w, add edge (b,c) with weight wp, remove edges (a,b) and
(c,d).  Both confModelSimple (lines 174-182) and switchLinkPairEnds
(lines 298-301) perform exactly this sequence of four assignments. -/
def swapNet (f : Nat → Nat → Int) (a b c d : Nat) (w wp : Int) : Nat → Nat → Int :=
  setW (setW (setW (setW f a d w) b c wp) a b 0) c d 0

/-- The network is symmetric (undirected). -/
def Symm (f : Nat → Nat → Int) : Prop := ∀ u v, f u v = f v u

/-- The network has no self-loops. -/
def NoSelf (f : Nat → Nat → Int) : Prop := ∀ u, f u u = 0

/-- All edges lie between nodes 0..N-1 (the container has N nodes). -/
def BoundedNet (N : Nat) (f : Nat → Nat → Int) : Prop :=
  ∀ u v, N ≤ u ∨ N ≤ v → f u v = 0

/-- Degree of node u: the number of neighbours with nonzero weight,
matching theNet(u).size() for a simple symmetric network. -/
def degree (f : Nat → Nat → Int) (N u : Nat) : Nat :=
  ((Finset.range N).filter (fun v => f u v ≠ 0)).card

section SwapNetValues

variable {f : Nat → Nat → Int} {a b c d : Nat} {w wp : Int}

/-- Bundles the pairwise distinctness of the four endpoint roles of a swap. -/
def FourDistinct (a b c d : Nat) : Prop :=
  a ≠ b ∧ a ≠ c ∧ a ≠ d ∧ b ≠ c ∧ b ≠ d ∧ c ≠ d

lemma swapNet_ab (h : FourDistinct a b c d) : swapNet f a b c d w wp a b = 0 := by
  obtain ⟨h1, h2, h3, h4, h5, h6⟩ := h
  simp only [swapNet, setW]
  split_ifs <;> first | rfl | omega | simp_all

lemma swapNet_ba (h : FourDistinct a b c d) : swapNet f a b c d w wp b a = 0 := by
  obtain ⟨h1, h2, h3, h4, h5, h6⟩ := h
  simp only [swapNet, setW]
  split_ifs <;> first | rfl | omega | simp_all

lemma swapNet_cd (h : FourDistinct a b c d) : swapNet f a b c d w wp c d = 0 := by
  obtain ⟨h1, h2, h3, h4, h5, h6⟩ := h
  simp only [swapNet, setW]
  split_ifs <;> first | rfl | omega | simp_all

lemma swapNet_dc (h : FourDistinct a b c d) : swapNet f a b c d w wp d c = 0 := by
  obtain ⟨h1, h2, h3, h4, h5, h6⟩ := h
  simp only [swapNet, setW]
  split_ifs <;> first | rfl | omega | simp_all

lemma swapNet_ad (h : FourDistinct a b c d) : swapNet f a b c d w wp a d = w := by
  obtain ⟨h1, h2, h3, h4, h5, h6⟩ := h
  simp only [swapNet, setW]
  split_ifs <;> first | rfl | omega | simp_all

lemma swapNet_da (h : FourDistinct a b c d) : swapNet f a b c d w wp d a = w := by
  obtain ⟨h1, h2, h3, h4, h5, h6⟩ := h
  simp only [swapNet, setW]
  split_ifs <;> first | rfl | omega | simp_all

lemma swapNet_bc (h : FourDistinct a b c d) : swapNet f a b c d w wp b c = wp := by
  obtain ⟨h1, h2, h3, h4, h5, h6⟩ := h
  simp only [swapNet, setW]
  split_ifs <;> first | rfl | omega | simp_all

lemma swapNet_cb (h : FourDistinct a b c d) : swapNet f a b c d w wp c b = wp := by
  obtain ⟨h1, h2, h3, h4, h5, h6⟩ := h
  simp only [swapNet, setW]
  split_ifs <;> first | rfl | omega | simp_all

/-- Frame property: any pair that is (as an unordered pair) none of the four
touched pairs keeps its weight. -/
lemma swapNet_frame {x y : Nat}
    (hab : ¬((x = a ∧ y = b) ∨ (x = b ∧ y = a)))
    (hcd : ¬((x = c ∧ y = d) ∨ (x = d ∧ y = c)))
    (had : ¬((x = a ∧ y = d) ∨ (x = d ∧ y = a)))
    (hbc : ¬((x = b ∧ y = c) ∨ (x = c ∧ y = b))) :
    swapNet f a b c d w wp x y = f x y := by
  simp only [swapNet, setW]
  split_ifs <;> first | rfl | omega | simp_all

lemma setW_symm {u v : Nat} (hf : Symm f) : Symm (setW f u v w) := by
  intro x y
  simp only [setW]
  split_ifs <;> first | rfl | omega | exact hf x y

lemma setW_noSelf {u v : Nat} (huv : u ≠ v) (hf : NoSelf f) : NoSelf (setW f u v w) := by
  intro x
  simp only [setW]
  split_ifs <;> first | omega | exact hf x

lemma setW_bounded {N u v : Nat} (hu : u < N) (hv : v < N) (hf : BoundedNet N f) :
    BoundedNet N (setW f u v w) := by
  intro x y hxy
  simp only [setW]
  split_ifs <;> first | exact hf x y hxy | omega

lemma swapNet_symm (hf : Symm f) : Symm (swapNet f a b c d w wp) := by
  unfold swapNet
  exact setW_symm (setW_symm (setW_symm (setW_symm hf)))

lemma swapNet_noSelf (hf : NoSelf f) (h : FourDistinct a b c d) :
    NoSelf (swapNet f a b c d w wp) := by
  obtain ⟨h1, h2, h3, h4, h5, h6⟩ := h
  unfold swapNet
  exact setW_noSelf h6 (setW_noSelf h1 (setW_noSelf h4 (setW_noSelf h3 hf)))

lemma swapNet_bounded {N : Nat} (hf : BoundedNet N f)
    (ha : a < N) (hb : b < N) (hc : c < N) (hd : d < N) :
    BoundedNet N (swapNet f a b c d w wp) := by
  unfold swapNet
  exact setW_bounded hc hd (setW_bounded ha hb (setW_bounded hb hc (setW_bounded ha hd hf)))

end SwapNetValues

lemma setW_ne {f : Nat → Nat → Int} {u v x y : Nat} {w : Int}
    (h : ¬((x = u ∧ y = v) ∨ (x = v ∧ y = u))) : setW f u v w x y = f x y := if_neg h

lemma degree_congr {f f2 : Nat → Nat → Int} {N u : Nat} (h : ∀ v, f u v = f2 u v) :
    degree f N u = degree f2 N u := by
  unfold degree
  congr 1
  exact Finset.filter_congr fun v _ => by rw [h v]

/-- Counting helper: if a row loses exactly the neighbour p and gains exactly
the neighbour q, its neighbour count is unchanged. -/
lemma card_filter_swap {r r2 : Nat → Int} {N p q : Nat} (hpq : p ≠ q) (hq : q < N)
    (hrp : r p ≠ 0) (hr2p : r2 p = 0) (hrq : r q = 0) (hr2q : r2 q ≠ 0)
    (hoth : ∀ v, v ≠ p → v ≠ q → r2 v = r v) (hp : p < N) :
    ((Finset.range N).filter fun v => r2 v ≠ 0).card
      = ((Finset.range N).filter fun v => r v ≠ 0).card := by
  have hset : ((Finset.range N).filter fun v => r2 v ≠ 0) =
      insert q (((Finset.range N).filter fun v => r v ≠ 0).erase p) := by
    ext v
    simp only [Finset.mem_insert, Finset.mem_erase, Finset.mem_filter, Finset.mem_range]
    constructor
    · rintro ⟨hvN, hv⟩
      by_cases hvq : v = q
      · exact Or.inl hvq
      · refine Or.inr ⟨fun hvp => ?_, hvN, ?_⟩
        · subst hvp; exact hv hr2p
        · by_cases hvp : v = p
          · subst hvp; exact absurd hr2p hv
          · rwa [hoth v hvp hvq] at hv
    · rintro (hvq | ⟨hvp, hvN, hv⟩)
      · subst hvq; exact ⟨hq, hr2q⟩
      · by_cases hvq : v = q
        · subst hvq; exact ⟨hvN, hr2q⟩
        · exact ⟨hvN, by rwa [hoth v hvp hvq]⟩
  have hpmem : p ∈ (Finset.range N).filter fun v => r v ≠ 0 := by
    simp only [Finset.mem_filter, Finset.mem_range]; exact ⟨hp, hrp⟩
  have hqnot : q ∉ (((Finset.range N).filter fun v => r v ≠ 0).erase p) := by
    simp only [Finset.mem_erase, Finset.mem_filter, Finset.mem_range]
    rintro ⟨-, -, hq0⟩
    exact hq0 hrq
  have hcardizzle : 0 < ((Finset.range N).filter fun v => r v ≠ 0).card :=
    Finset.card_pos.mpr ⟨p, hpmem⟩
  rw [hset, Finset.card_insert_of_not_mem hqnot, Finset.card_erase_of_mem hpmem]
  omega

/-- The accepted swap preserves every node degree. -/
lemma swapNet_degree {f : Nat → Nat → Int} {a b c d N : Nat} {w wp : Int}
    (hd : FourDistinct a b c d) (hsym : Symm f)
    (hab : f a b ≠ 0) (hcd : f c d ≠ 0) (had : f a d = 0) (hbc : f b c = 0)
    (hw : w ≠ 0) (hwp : wp ≠ 0)
    (haN : a < N) (hbN : b < N) (hcN : c < N) (hdN : d < N) :
    ∀ u, degree (swapNet f a b c d w wp) N u = degree f N u := by
  have hd0 := hd
  obtain ⟨h1, h2, h3, h4, h5, h6⟩ := hd0
  intro u
  by_cases hua : u = a
  · subst hua
    refine card_filter_swap h5 hdN hab (swapNet_ab hd) had ?_ ?_ hbN
    · rw [swapNet_ad hd]; exact hw
    · intro v hvb hvd
      exact swapNet_frame (by omega) (by omega) (by omega) (by omega)
  by_cases hub : u = b
  · subst hub
    refine card_filter_swap h2 hcN ?_ (swapNet_ba hd) hbc ?_ ?_ haN
    · rw [hsym u a]; exact hab
    · rw [swapNet_bc hd]; exact hwp
    · intro v hva hvc
      exact swapNet_frame (by omega) (by omega) (by omega) (by omega)
  by_cases huc : u = c
  · subst huc
    refine card_filter_swap (Ne.symm h5) hbN hcd (swapNet_cd hd) ?_ ?_ ?_ hdN
    · rw [hsym u b]; exact hbc
    · rw [swapNet_cb hd]; exact hwp
    · intro v hvd hvb
      exact swapNet_frame (by omega) (by omega) (by omega) (by omega)
  by_cases hud : u = d
  · subst hud
    refine card_filter_swap (Ne.symm h2) haN ?_ (swapNet_dc hd) ?_ ?_ ?_ hcN
    · rw [hsym u c]; exact hcd
    · rw [hsym u a]; exact had
    · rw [swapNet_da hd]; exact hw
    · intro v hvc hva
      exact swapNet_frame (by omega) (by omega) (by omega) (by omega)
  · exact degree_congr fun v =>
      swapNet_frame (by omega) (by omega) (by omega) (by omega)

/-! ### Edge enumeration and derived quantities -/

/-- Two index entries denote the same undirected edge. -/
def sameU (p q : Nat × Nat) : Prop :=
  (p.1 = q.1 ∧ p.2 = q.2) ∨ (p.1 = q.2 ∧ p.2 = q.1)

instance (p q : Nat × Nat) : Decidable (sameU p q) := by
  unfold sameU; infer_instance

/-- All ordered pairs (u, v) with u < v < N, the canonical enumeration of
potential undirected edges. -/
def pairList (N : Nat) : List (Nat × Nat) :=
  ((List.range N).product (List.range N)).filter fun p => decide (p.1 < p.2)

/-- The edge list built by confModelSimple (Randomizer.H lines 131-135):
every undirected edge exactly once, smaller endpoint first. -/
def buildEdgeList (f : Nat → Nat → Int) (N : Nat) : List (Nat × Nat) :=
  (pairList N).filter fun p => decide (f p.1 p.2 ≠ 0)

/-- The weights of all present edges, enumerated once per undirected edge. -/
def weightList (f : Nat → Nat → Int) (N : Nat) : List Int :=
  (pairList N).filterMap fun p => if f p.1 p.2 = 0 then none else some (f p.1 p.2)

/-- The multiset of edge weights of the network. -/
def weightMS (f : Nat → Nat → Int) (N : Nat) : Multiset Int :=
  (weightList f N : Multiset Int)

/-- Number of edges of the network (numberOfEdges in the source). -/
def edgeCount (f : Nat → Nat → Int) (N : Nat) : Nat :=
  (weightList f N).length

/-- Canonical orientation of an undirected edge: smaller endpoint first. -/
def cp (u v : Nat) : Nat × Nat := if u < v then (u, v) else (v, u)

lemma mem_pairList {N : Nat} {p : Nat × Nat} :
    p ∈ pairList N ↔ p.1 < p.2 ∧ p.1 < N ∧ p.2 < N := by
  obtain ⟨u, v⟩ := p
  unfold pairList
  rw [List.mem_filter, List.pair_mem_product]
  simp only [List.mem_range, decide_eq_true_eq]
  omega

lemma pairList_nodup (N : Nat) : (pairList N).Nodup :=
  ((List.nodup_range N).product (List.nodup_range N)).filter _

lemma cp_mem_pairList {u v N : Nat} (huv : u ≠ v) (hu : u < N) (hv : v < N) :
    cp u v ∈ pairList N := by
  unfold cp
  split_ifs <;> simp only [mem_pairList] <;> omega

lemma cp_lt_ne {x : Nat × Nat} {u v : Nat} (hx : x.1 < x.2) (hne : x ≠ cp u v) :
    ¬((x.1 = u ∧ x.2 = v) ∨ (x.1 = v ∧ x.2 = u)) := by
  obtain ⟨x1, x2⟩ := x
  unfold cp at hne
  split_ifs at hne <;> simp only [ne_eq, Prod.mk.injEq, not_and] at hne ⊢ <;> omega

lemma filterMap_toList {α β : Type} (F : α → Option β) (x : α) (t : List α) :
    (x :: t).filterMap F = (F x).toList ++ t.filterMap F := by
  cases h : F x <;> simp [List.filterMap_cons, h]

/-- Generic exchange lemma: if two maps over a duplicate-free list agree
except that F drops A and B while producing at C and D exactly what G
produced at A and B (in either order), the resulting multisets agree. -/
lemma filterMap_swap_multiset {α β : Type} [DecidableEq α]
    (l : List α) (hl : l.Nodup) (F G : α → Option β) (A B C D : α)
    (hA : A ∈ l) (hB : B ∈ l) (hC : C ∈ l) (hD : D ∈ l)
    (hAB : A ≠ B) (hAC : A ≠ C) (hAD : A ≠ D) (hBC : B ≠ C) (hBD : B ≠ D) (hCD : C ≠ D)
    (hFA : F A = none) (hFB : F B = none) (hGC : G C = none) (hGD : G D = none)
    (hcross : (F C = G A ∧ F D = G B) ∨ (F C = G B ∧ F D = G A))
    (hoth : ∀ x ∈ l, x ≠ A → x ≠ B → x ≠ C → x ≠ D → F x = G x) :
    (l.filterMap F : Multiset β) = (l.filterMap G : Multiset β) := by
  have hn1 : (l.erase A).Nodup := hl.erase A
  have hn2 : ((l.erase A).erase B).Nodup := hn1.erase B
  have hn3 : (((l.erase A).erase B).erase C).Nodup := hn2.erase C
  have hB1 : B ∈ l.erase A := hl.mem_erase_iff.2 ⟨Ne.symm hAB, hB⟩
  have hC2 : C ∈ (l.erase A).erase B :=
    hn1.mem_erase_iff.2 ⟨Ne.symm hBC, hl.mem_erase_iff.2 ⟨Ne.symm hAC, hC⟩⟩
  have hD3 : D ∈ ((l.erase A).erase B).erase C :=
    hn2.mem_erase_iff.2 ⟨Ne.symm hCD,
      hn1.mem_erase_iff.2 ⟨Ne.symm hBD, hl.mem_erase_iff.2 ⟨Ne.symm hAD, hD⟩⟩⟩
  have p3 : List.Perm (((l.erase A).erase B).erase C)
      (D :: ((((l.erase A).erase B).erase C).erase D)) := List.perm_cons_erase hD3
  have p2 : List.Perm ((l.erase A).erase B)
      (C :: D :: ((((l.erase A).erase B).erase C).erase D)) :=
    (List.perm_cons_erase hC2).trans (List.Perm.cons C p3)
  have p1 : List.Perm (l.erase A)
      (B :: C :: D :: ((((l.erase A).erase B).erase C).erase D)) :=
    (List.perm_cons_erase hB1).trans (List.Perm.cons B p2)
  have hperm : List.Perm l
      (A :: B :: C :: D :: ((((l.erase A).erase B).erase C).erase D)) :=
    (List.perm_cons_erase hA).trans (List.Perm.cons A p1)
  have ht : ∀ x ∈ (((l.erase A).erase B).erase C).erase D, F x = G x := by
    intro x hx
    obtain ⟨hxD, hx3⟩ := hn3.mem_erase_iff.1 hx
    obtain ⟨hxC, hx2⟩ := hn2.mem_erase_iff.1 hx3
    obtain ⟨hxB, hx1⟩ := hn1.mem_erase_iff.1 hx2
    obtain ⟨hxA, hxl⟩ := hl.mem_erase_iff.1 hx1
    exact hoth x hxl hxA hxB hxC hxD
  have eF : (l.filterMap F : Multiset β)
      = ↑((F C).toList ++ ((F D).toList ++
          ((((l.erase A).erase B).erase C).erase D).filterMap F)) := by
    rw [Multiset.coe_eq_coe.2 (hperm.filterMap F)]
    rw [filterMap_toList, filterMap_toList, filterMap_toList, filterMap_toList,
      hFA, hFB]
    simp
  have eG : (l.filterMap G : Multiset β)
      = ↑((G A).toList ++ ((G B).toList ++
          ((((l.erase A).erase B).erase C).erase D).filterMap G)) := by
    rw [Multiset.coe_eq_coe.2 (hperm.filterMap G)]
    rw [filterMap_toList, filterMap_toList, filterMap_toList, filterMap_toList,
      hGC, hGD]
    simp [List.append_assoc]
  rw [eF, eG, List.filterMap_congr ht]
  rcases hcross with ⟨hc1, hc2⟩ | ⟨hc1, hc2⟩
  · rw [hc1, hc2]
  · rw [hc1, hc2]
    rw [← Multiset.coe_add, ← Multiset.coe_add, ← Multiset.coe_add, ← Multiset.coe_add]
    exact add_left_comm _ _ _

lemma optval_pair {f2 : Nat → Nat → Int} {u v : Nat} (hsym2 : f2 u v = f2 v u) :
    (if f2 (cp u v).1 (cp u v).2 = 0 then none else some (f2 (cp u v).1 (cp u v).2))
      = if f2 u v = 0 then none else some (f2 u v) := by
  unfold cp
  by_cases h : u < v
  · simp [h]
  · simp only [h, if_false]
    rw [← hsym2]

/-- The accepted swap preserves the multiset of edge weights, provided the
two written weights are the two removed weights in one order or the other. -/
lemma swapNet_weightMS {f : Nat → Nat → Int} {a b c d N : Nat} {w wp : Int}
    (hd : FourDistinct a b c d) (hsym : Symm f)
    (hab : f a b ≠ 0) (hcd : f c d ≠ 0) (had : f a d = 0) (hbc : f b c = 0)
    (haN : a < N) (hbN : b < N) (hcN : c < N) (hdN : d < N)
    (hcross : (w = f a b ∧ wp = f c d) ∨ (w = f c d ∧ wp = f a b)) :
    weightMS (swapNet f a b c d w wp) N = weightMS f N := by
  have hd2 := hd
  obtain ⟨h1, h2, h3, h4, h5, h6⟩ := hd2
  have hg : Symm (swapNet f a b c d w wp) := swapNet_symm hsym
  unfold weightMS weightList
  refine filterMap_swap_multiset (pairList N) (pairList_nodup N) _ _
    (cp a b) (cp c d) (cp a d) (cp b c)
    (cp_mem_pairList h1 haN hbN) (cp_mem_pairList h6 hcN hdN)
    (cp_mem_pairList h3 haN hdN) (cp_mem_pairList h4 hbN hcN)
    ?_ ?_ ?_ ?_ ?_ ?_ ?_ ?_ ?_ ?_ ?_ ?_
  · unfold cp; split_ifs <;> simp <;> omega
  · unfold cp; split_ifs <;> simp <;> omega
  · unfold cp; split_ifs <;> simp <;> omega
  · unfold cp; split_ifs <;> simp <;> omega
  · unfold cp; split_ifs <;> simp <;> omega
  · unfold cp; split_ifs <;> simp <;> omega
  · rw [optval_pair (hg a b), swapNet_ab hd]
    simp
  · rw [optval_pair (hg c d), swapNet_cd hd]
    simp
  · rw [optval_pair (hsym a d)]
    simp [had]
  · rw [optval_pair (hsym b c)]
    simp [hbc]
  · rcases hcross with ⟨hw1, hwp1⟩ | ⟨hw1, hwp1⟩
    · refine Or.inl ⟨?_, ?_⟩
      · rw [optval_pair (hg a d), swapNet_ad hd, optval_pair (hsym a b), hw1]
      · rw [optval_pair (hg b c), swapNet_bc hd, optval_pair (hsym c d), hwp1]
    · refine Or.inr ⟨?_, ?_⟩
      · rw [optval_pair (hg a d), swapNet_ad hd, optval_pair (hsym c d), hw1]
      · rw [optval_pair (hg b c), swapNet_bc hd, optval_pair (hsym a b), hwp1]
  · intro x hx hxA hxB hxC hxD
    have hxlt : x.1 < x.2 := (mem_pairList.1 hx).1
    rw [swapNet_frame (cp_lt_ne hxlt hxA) (cp_lt_ne hxlt hxB)
      (cp_lt_ne hxlt hxC) (cp_lt_ne hxlt hxD)]

/-! ### confModelSimple (Randomizer.H lines 70-194)

The random generator is embedded as a stream g : Nat → Nat together with a
cursor; the k-th call generator.next(bound) returns g k % bound, and the
cursor advances by one per draw.  This captures any generator, and makes the
exact draw-consumption order of the source observable. -/

/-- State of one confModelSimple run: the network, the cached edge list, the
count of successful swaps, and the generator cursor. -/
structure CMState where
  net : Nat → Nat → Int
  edgeList : List (Nat × Nat)
  succ : Nat
  pos : Nat

/-- The state update of an accepted confModelSimple swap (lines 165-182):
the edge-list slots are overwritten (index i1 gets edge1.first/edge2.second,
index i2 keeps its first component and gets edge1.second, lines 168-170),
the two new edges receive the two old weights in the order chosen by ord
(lines 173-179, with the reads performed on the partially updated network
exactly as in the source), and the two old edges are zeroed (lines 181-182). -/
def cmAccept (s : CMState) (i1 i2 a b c d ord : Nat) : CMState :=
  { net :=
      if ord = 0 then
        setW (setW (setW (setW s.net a d (s.net a b)) b c
          ((setW s.net a d (s.net a b)) c d)) a b 0) c d 0
      else
        setW (setW (setW (setW s.net a d (s.net c d)) b c
          ((setW s.net a d (s.net c d)) a b)) a b 0) c d 0,
    edgeList := (s.edgeList.set i1 (a, d)).set i2
      (((s.edgeList.set i1 (a, d)).getD i2 (0, 0)).1, b),
    succ := s.succ + 1,
    pos := s.pos + 4 }

/-- One iteration of the main loop of confModelSimple (lines 139-191):
draw two edge indices; skip the attempt if they coincide (line 145) or the
edges share a node (lines 149-152); otherwise flip edge1 with probability
1/2 (lines 155-159), reject if either crossing edge already exists
(lines 163-164), and otherwise accept (cmAccept). -/
def stepSimple (g : Nat → Nat) (s : CMState) : CMState :=
  let L := s.edgeList.length
  let i1 := g s.pos % L
  let i2 := g (s.pos + 1) % L
  if i1 = i2 then { s with pos := s.pos + 2 }
  else
    let e1 := s.edgeList.getD i1 (0, 0)
    let e2 := s.edgeList.getD i2 (0, 0)
    if e1.1 = e2.1 ∨ e1.1 = e2.2 ∨ e1.2 = e2.1 ∨ e1.2 = e2.2 then { s with pos := s.pos + 2 }
    else
      let flip := g (s.pos + 2) % 2
      let a := if flip = 0 then e1.2 else e1.1
      let b := if flip = 0 then e1.1 else e1.2
      if s.net a e2.2 = 0 ∧ s.net b e2.1 = 0 then
        cmAccept s i1 i2 a b e2.1 e2.2 (g (s.pos + 3) % 2)
      else { s with pos := s.pos + 3 }

/-- Iterate stepSimple; the first argument of runSteps is the number of
remaining repeats. -/
def runSteps (g : Nat → Nat) : Nat → CMState → CMState
  | 0, s => s
  | k + 1, s => runSteps g k (stepSimple g s)

/-- Initial state of a confModelSimple run. -/
def initCM (f : Nat → Nat → Int) (N : Nat) : CMState :=
  { net := f, edgeList := buildEdgeList f N, succ := 0, pos := 0 }

/-- Full run of confModelSimple with the given repeats budget; .succ of the
result is the return value of the source function. -/
def confModelSimple (f : Nat → Nat → Int) (N : Nat) (g : Nat → Nat) (repeats : Nat) : CMState :=
  runSteps g repeats (initCM f N)

/-- Consistency of the cached edge list with the network, read as a set of
unordered pairs: every entry is a real edge with distinct in-range
endpoints, every edge of the network appears, and no two entries denote the
same undirected edge. -/
def edgeListOk (N : Nat) (f : Nat → Nat → Int) (l : List (Nat × Nat)) : Prop :=
  (∀ p ∈ l, p.1 ≠ p.2 ∧ p.1 < N ∧ p.2 < N ∧ f p.1 p.2 ≠ 0) ∧
  (∀ u v, f u v ≠ 0 → ∃ p ∈ l, sameU p (u, v)) ∧
  List.Pairwise (fun p q => ¬ sameU p q) l

/-- Global invariant of a confModelSimple run. -/
def CMInv (N : Nat) (s : CMState) : Prop :=
  Symm s.net ∧ NoSelf s.net ∧ BoundedNet N s.net ∧ edgeListOk N s.net s.edgeList

lemma sameU_symm {p q : Nat × Nat} (h : sameU p q) : sameU q p := by
  unfold sameU at *
  omega

lemma sameU_trans {p q r : Nat × Nat} (h1 : sameU p q) (h2 : sameU q r) : sameU p r := by
  unfold sameU at *
  omega

lemma sameU_comm_pair {p : Nat × Nat} {u v : Nat} (h : sameU p (u, v)) : sameU p (v, u) := by
  unfold sameU at *
  simp only [] at *
  omega

lemma val_of_sameU {f : Nat → Nat → Int} (hsym : Symm f) {p : Nat × Nat} {u v : Nat}
    (h : sameU p (u, v)) : f p.1 p.2 = f u v := by
  rcases h with ⟨e1, e2⟩ | ⟨e1, e2⟩
  · rw [e1, e2]
  · rw [e1, e2]
    exact hsym v u

lemma edgeListOk_pairwise_ne {N : Nat} {f : Nat → Nat → Int} {l : List (Nat × Nat)}
    (hok : edgeListOk N f l) :
    ∀ k1 k2 (h1 : k1 < l.length) (h2 : k2 < l.length), k1 ≠ k2 →
      ¬ sameU (l.get ⟨k1, h1⟩) (l.get ⟨k2, h2⟩) := by
  intro k1 k2 h1 h2 hne
  have hpw := List.pairwise_iff_getElem.1 hok.2.2
  rcases Nat.lt_or_ge k1 k2 with h | h
  · exact hpw k1 k2 h1 h2 h
  · have hlt : k2 < k1 := by omega
    have := hpw k2 k1 h2 h1 hlt
    exact fun hs => this (sameU_symm hs)

/-- Consistency of the edge index cache is preserved by an accepted swap:
the slot of the first drawn edge now holds (a, d) and the slot of the second
holds (c, b), exactly the two created edges (lines 168-170 of the source). -/
lemma edgeListOk_accept {N : Nat} {f : Nat → Nat → Int} {l : List (Nat × Nat)}
    (hok : edgeListOk N f l) (hsym : Symm f)
    {i1 i2 : Nat} (hne : i1 ≠ i2) (hi1 : i1 < l.length) (hi2 : i2 < l.length)
    {a b c d : Nat} (hd : FourDistinct a b c d)
    (he1 : sameU (l.get ⟨i1, hi1⟩) (a, b))
    (he2 : l.get ⟨i2, hi2⟩ = (c, d))
    (had : f a d = 0) (hbc : f b c = 0)
    (haN : a < N) (hbN : b < N) (hcN : c < N) (hdN : d < N)
    {w wp : Int} (hw : w ≠ 0) (hwp : wp ≠ 0) :
    edgeListOk N (swapNet f a b c d w wp) ((l.set i1 (a, d)).set i2 (c, b)) := by
  have hd2 := hd
  obtain ⟨n1, n2, n3, n4, n5, n6⟩ := hd2
  have hlen : ((l.set i1 (a, d)).set i2 (c, b)).length = l.length := by
    simp [List.length_set]
  have hget : ∀ k (hk3 : k < ((l.set i1 (a, d)).set i2 (c, b)).length)
      (hk : k < l.length),
      ((l.set i1 (a, d)).set i2 (c, b)).get ⟨k, hk3⟩
        = if i2 = k then (c, b) else if i1 = k then (a, d) else l.get ⟨k, hk⟩ := by
    intro k hk3 hk
    simp only [List.get_eq_getElem, List.getElem_set]
  have he2s : sameU (l.get ⟨i2, hi2⟩) (c, d) := by
    rw [he2]
    exact Or.inl ⟨rfl, rfl⟩
  have hnotAD : ∀ k (hk : k < l.length), ¬ sameU (l.get ⟨k, hk⟩) (a, d) := by
    intro k hk hs
    have hP := hok.1 _ (List.get_mem l k hk)
    exact hP.2.2.2 (by rw [val_of_sameU hsym hs]; exact had)
  have hnotBC : ∀ k (hk : k < l.length), ¬ sameU (l.get ⟨k, hk⟩) (b, c) := by
    intro k hk hs
    have hP := hok.1 _ (List.get_mem l k hk)
    exact hP.2.2.2 (by rw [val_of_sameU hsym hs]; exact hbc)
  refine ⟨?_, ?_, ?_⟩
  · -- every entry of the updated list is a real in-range edge of the new net
    intro p hp
    rw [List.mem_iff_get] at hp
    obtain ⟨⟨k, hk3⟩, hkp⟩ := hp
    have hk : k < l.length := by omega
    rw [hget k hk3 hk] at hkp
    split_ifs at hkp with t1 t2
    · subst hkp
      refine ⟨Ne.symm n4, hcN, hbN, ?_⟩
      show swapNet f a b c d w wp c b ≠ 0
      rw [swapNet_cb hd]
      exact hwp
    · subst hkp
      refine ⟨n3, haN, hdN, ?_⟩
      show swapNet f a b c d w wp a d ≠ 0
      rw [swapNet_ad hd]
      exact hw
    · have hP := hok.1 _ (List.get_mem l k hk)
      subst hkp
      refine ⟨hP.1, hP.2.1, hP.2.2.1, ?_⟩
      have hnab : ¬ sameU (l.get ⟨k, hk⟩) (a, b) := by
        intro hs
        exact edgeListOk_pairwise_ne hok k i1 hk hi1 (Ne.symm t2)
          (sameU_trans hs (sameU_symm he1))
      have hncd : ¬ sameU (l.get ⟨k, hk⟩) (c, d) := by
        intro hs
        exact edgeListOk_pairwise_ne hok k i2 hk hi2 (Ne.symm t1)
          (sameU_trans hs (sameU_symm he2s))
      show swapNet f a b c d w wp (l.get ⟨k, hk⟩).1 (l.get ⟨k, hk⟩).2 ≠ 0
      rw [swapNet_frame hnab hncd (hnotAD k hk) (hnotBC k hk)]
      exact hP.2.2.2
  · -- every edge of the new net is listed
    intro u v huv
    by_cases c1 : (u = a ∧ v = d) ∨ (u = d ∧ v = a)
    · refine ⟨(a, d), ?_, by show (a = u ∧ d = v) ∨ (a = v ∧ d = u); omega⟩
      have hmm := hget i1 (by omega) hi1
      rw [if_neg (Ne.symm hne), if_pos rfl] at hmm
      have hmem := List.get_mem ((l.set i1 (a, d)).set i2 (c, b)) i1 (by omega)
      rwa [hmm] at hmem
    by_cases c2 : (u = b ∧ v = c) ∨ (u = c ∧ v = b)
    · refine ⟨(c, b), ?_, by show (c = u ∧ b = v) ∨ (c = v ∧ b = u); omega⟩
      have hmm := hget i2 (by omega) hi2
      rw [if_pos rfl] at hmm
      have hmem := List.get_mem ((l.set i1 (a, d)).set i2 (c, b)) i2 (by omega)
      rwa [hmm] at hmem
    by_cases c3 : (u = a ∧ v = b) ∨ (u = b ∧ v = a)
    · exfalso
      rcases c3 with ⟨e1, e2⟩ | ⟨e1, e2⟩
      · subst e1; subst e2
        rw [swapNet_ab hd] at huv
        exact huv rfl
      · subst e1; subst e2
        rw [swapNet_ba hd] at huv
        exact huv rfl
    by_cases c4 : (u = c ∧ v = d) ∨ (u = d ∧ v = c)
    · exfalso
      rcases c4 with ⟨e1, e2⟩ | ⟨e1, e2⟩
      · subst e1; subst e2
        rw [swapNet_cd hd] at huv
        exact huv rfl
      · subst e1; subst e2
        rw [swapNet_dc hd] at huv
        exact huv rfl
    · have hfu : f u v ≠ 0 := by
        rw [← @swapNet_frame f a b c d w wp u v c3 c4 c1 c2]
        exact huv
      obtain ⟨p, hpl, hps⟩ := hok.2.1 u v hfu
      rw [List.mem_iff_get] at hpl
      obtain ⟨⟨k, hk⟩, hkp⟩ := hpl
      by_cases hki1 : k = i1
      · exfalso
        subst hki1
        have hpe : p = l.get ⟨k, hi1⟩ := by rw [← hkp]
        apply c3
        have : sameU (u, v) (a, b) :=
          sameU_trans (sameU_symm hps) (hpe ▸ he1)
        unfold sameU at this
        simpa using this
      by_cases hki2 : k = i2
      · exfalso
        subst hki2
        have hpe : p = l.get ⟨k, hi2⟩ := by rw [← hkp]
        apply c4
        have : sameU (u, v) (c, d) :=
          sameU_trans (sameU_symm hps) (hpe ▸ he2s)
        unfold sameU at this
        simpa using this
      · refine ⟨p, ?_, hps⟩
        have hmm := hget k (by omega) hk
        rw [if_neg (Ne.symm hki2), if_neg (Ne.symm hki1)] at hmm
        have hmem := List.get_mem ((l.set i1 (a, d)).set i2 (c, b)) k (by omega)
        rw [hmm, hkp] at hmem
        exact hmem
  · -- no two entries denote the same undirected edge
    rw [List.pairwise_iff_get]
    intro k1 k2 hlt
    obtain ⟨k1v, hk1⟩ := k1
    obtain ⟨k2v, hk2⟩ := k2
    have hk1l : k1v < l.length := by omega
    have hk2l : k2v < l.length := by omega
    have hlt2 : k1v < k2v := hlt
    rw [hget k1v hk1 hk1l, hget k2v hk2 hk2l]
    by_cases s1 : i2 = k1v
    · rw [if_pos s1]
      by_cases s2 : i2 = k2v
      · omega
      · rw [if_neg s2]
        by_cases s3 : i1 = k2v
        · rw [if_pos s3]
          intro hs
          unfold sameU at hs
          simp at hs
          omega
        · rw [if_neg s3]
          exact fun hs => hnotBC k2v hk2l (sameU_comm_pair (sameU_symm hs))
    · rw [if_neg s1]
      by_cases s1b : i1 = k1v
      · rw [if_pos s1b]
        by_cases s2 : i2 = k2v
        · rw [if_pos s2]
          intro hs
          unfold sameU at hs
          simp at hs
          omega
        · rw [if_neg s2]
          by_cases s3 : i1 = k2v
          · omega
          · rw [if_neg s3]
            exact fun hs => hnotAD k2v hk2l (sameU_symm hs)

      · rw [if_neg s1b]
        by_cases s2 : i2 = k2v
        · rw [if_pos s2]
          exact fun hs => hnotBC k1v hk1l (sameU_comm_pair hs)
        · rw [if_neg s2]
          by_cases s3 : i1 = k2v
          · rw [if_pos s3]
            exact hnotAD k1v hk1l
          · rw [if_neg s3]
            exact edgeListOk_pairwise_ne hok k1v k2v hk1l hk2l (by omega)

/-- The sequential assignments of the accept branch produce exactly a
swapNet update, with the two weights crossed according to ord. -/
lemma cmAccept_state {s : CMState} {i1 i2 a b c d o : Nat}
    (h2 : a ≠ c) (h3 : a ≠ d) (h5 : b ≠ d) (h6 : c ≠ d)
    (hne : i1 ≠ i2) (hi2 : i2 < s.edgeList.length)
    (hc : (s.edgeList.getD i2 (0, 0)).1 = c) :
    (cmAccept s i1 i2 a b c d o).net
        = swapNet s.net a b c d
            (if o = 0 then s.net a b else s.net c d)
            (if o = 0 then s.net c d else s.net a b) ∧
    (cmAccept s i1 i2 a b c d o).edgeList
        = (s.edgeList.set i1 (a, d)).set i2 (c, b) := by
  constructor
  · show (if o = 0 then _ else _) = _
    by_cases h : o = 0
    · rw [if_pos h, if_pos h, if_pos h]
      unfold swapNet
      rw [setW_ne (by omega)]
    · rw [if_neg h, if_neg h, if_neg h]
      unfold swapNet
      rw [setW_ne (by omega)]
  · show (s.edgeList.set i1 (a, d)).set i2
        (((s.edgeList.set i1 (a, d)).getD i2 (0, 0)).1, b) = _
    have hlen : i2 < (s.edgeList.set i1 (a, d)).length := by
      rw [List.length_set]; exact hi2
    have : (s.edgeList.set i1 (a, d)).getD i2 (0, 0) = s.edgeList.getD i2 (0, 0) := by
      rw [List.getD_eq_getElem _ _ hlen, List.getD_eq_getElem _ _ hi2]
      exact List.getElem_set_ne hne _
    rw [this, hc]

/-- Master step lemma: one iteration of confModelSimple preserves the
global invariant, every node degree, and the multiset of edge weights. -/
lemma stepSimple_inv {N : Nat} {g : Nat → Nat} {s : CMState} (h : CMInv N s) :
    CMInv N (stepSimple g s) ∧
    (∀ u, degree (stepSimple g s).net N u = degree s.net N u) ∧
    weightMS (stepSimple g s).net N = weightMS s.net N := by
  obtain ⟨hsym, hns, hb, hok⟩ := h
  simp only [stepSimple]
  split_ifs with hI hsh hflip hEx hEx
  · exact ⟨⟨hsym, hns, hb, hok⟩, fun u => rfl, rfl⟩
  · exact ⟨⟨hsym, hns, hb, hok⟩, fun u => rfl, rfl⟩
  all_goals (
    first
      | exact ⟨⟨hsym, hns, hb, hok⟩, fun u => rfl, rfl⟩
      | skip)
  all_goals (
    -- accept branches: flip chosen or not
    have hL : s.edgeList.length ≠ 0 := by
      intro h0
      rw [List.length_eq_zero] at h0
      rw [h0] at hsh
      simp at hsh
    have hi1 : g s.pos % s.edgeList.length < s.edgeList.length :=
      Nat.mod_lt _ (Nat.pos_of_ne_zero hL)
    have hi2 : g (s.pos + 1) % s.edgeList.length < s.edgeList.length :=
      Nat.mod_lt _ (Nat.pos_of_ne_zero hL)
    have hE1 : s.edgeList.getD (g s.pos % s.edgeList.length) (0, 0)
        = s.edgeList.get ⟨g s.pos % s.edgeList.length, hi1⟩ := by
      rw [List.getD_eq_getElem _ _ hi1]
      rfl
    have hE2 : s.edgeList.getD (g (s.pos + 1) % s.edgeList.length) (0, 0)
        = s.edgeList.get ⟨g (s.pos + 1) % s.edgeList.length, hi2⟩ := by
      rw [List.getD_eq_getElem _ _ hi2]
      rfl
    have hP1 := hok.1 _ (List.get_mem s.edgeList (g s.pos % s.edgeList.length) hi1)
    have hP2 := hok.1 _ (List.get_mem s.edgeList (g (s.pos + 1) % s.edgeList.length) hi2))
  · -- flip = 0 : edge1 is reversed, a = e1.2, b = e1.1
    rcases hEx with ⟨had, hbc⟩
    rw [hE1, hE2] at hsh had hbc ⊢
    set E1 := s.edgeList.get ⟨g s.pos % s.edgeList.length, hi1⟩ with hE1def
    set E2 := s.edgeList.get ⟨g (s.pos + 1) % s.edgeList.length, hi2⟩ with hE2def
    have hd : FourDistinct E1.2 E1.1 E2.1 E2.2 := by
      refine ⟨Ne.symm hP1.1, ?_, ?_, ?_, ?_, hP2.1⟩ <;> (intro he; apply hsh; tauto)
    have hab : s.net E1.2 E1.1 ≠ 0 := by
      rw [hsym E1.2 E1.1]
      exact hP1.2.2.2
    have hcd : s.net E2.1 E2.2 ≠ 0 := hP2.2.2.2
    obtain ⟨hnet, hlist⟩ := cmAccept_state
      (s := s) (o := g (s.pos + 3) % 2)
      hd.2.1 hd.2.2.1 hd.2.2.2.2.1 hd.2.2.2.2.2
      hI hi2
      (by rw [hE2])
    have hw : (if g (s.pos + 3) % 2 = 0 then s.net E1.2 E1.1 else s.net E2.1 E2.2) ≠ 0 := by
      split_ifs
      · exact hab
      · exact hcd
    have hwp : (if g (s.pos + 3) % 2 = 0 then s.net E2.1 E2.2 else s.net E1.2 E1.1) ≠ 0 := by
      split_ifs
      · exact hcd
      · exact hab
    have hcross : ((if g (s.pos + 3) % 2 = 0 then s.net E1.2 E1.1 else s.net E2.1 E2.2)
          = s.net E1.2 E1.1 ∧
        (if g (s.pos + 3) % 2 = 0 then s.net E2.1 E2.2 else s.net E1.2 E1.1)
          = s.net E2.1 E2.2) ∨
        ((if g (s.pos + 3) % 2 = 0 then s.net E1.2 E1.1 else s.net E2.1 E2.2)
          = s.net E2.1 E2.2 ∧
        (if g (s.pos + 3) % 2 = 0 then s.net E2.1 E2.2 else s.net E1.2 E1.1)
          = s.net E1.2 E1.1) := by
      split_ifs
      · exact Or.inl ⟨rfl, rfl⟩
      · exact Or.inr ⟨rfl, rfl⟩
    have he1s : sameU E1 (E1.2, E1.1) := Or.inr ⟨rfl, rfl⟩
    refine ⟨⟨?_, ?_, ?_, ?_⟩, ?_, ?_⟩
    · rw [show (cmAccept s (g s.pos % s.edgeList.length)
        (g (s.pos + 1) % s.edgeList.length) E1.2 E1.1 E2.1 E2.2
        (g (s.pos + 3) % 2)).net = _ from hnet]
      exact swapNet_symm hsym
    · rw [show (cmAccept s (g s.pos % s.edgeList.length)
        (g (s.pos + 1) % s.edgeList.length) E1.2 E1.1 E2.1 E2.2
        (g (s.pos + 3) % 2)).net = _ from hnet]
      exact swapNet_noSelf hns hd
    · rw [show (cmAccept s (g s.pos % s.edgeList.length)
        (g (s.pos + 1) % s.edgeList.length) E1.2 E1.1 E2.1 E2.2
        (g (s.pos + 3) % 2)).net = _ from hnet]
      exact swapNet_bounded hb hP1.2.2.1 hP1.2.1 hP2.2.1 hP2.2.2.1
    · rw [show (cmAccept s (g s.pos % s.edgeList.length)
        (g (s.pos + 1) % s.edgeList.length) E1.2 E1.1 E2.1 E2.2
        (g (s.pos + 3) % 2)).net = _ from hnet,
        show (cmAccept s (g s.pos % s.edgeList.length)
        (g (s.pos + 1) % s.edgeList.length) E1.2 E1.1 E2.1 E2.2
        (g (s.pos + 3) % 2)).edgeList = _ from hlist]
      exact edgeListOk_accept hok hsym hI hi1 hi2 hd
        he1s rfl had hbc hP1.2.2.1 hP1.2.1 hP2.2.1 hP2.2.2.1 hw hwp
    · intro u
      rw [show (cmAccept s (g s.pos % s.edgeList.length)
        (g (s.pos + 1) % s.edgeList.length) E1.2 E1.1 E2.1 E2.2
        (g (s.pos + 3) % 2)).net = _ from hnet]
      exact swapNet_degree hd hsym hab hcd had hbc hw hwp
        hP1.2.2.1 hP1.2.1 hP2.2.1 hP2.2.2.1 u
    · rw [show (cmAccept s (g s.pos % s.edgeList.length)
        (g (s.pos + 1) % s.edgeList.length) E1.2 E1.1 E2.1 E2.2
        (g (s.pos + 3) % 2)).net = _ from hnet]
      exact swapNet_weightMS hd hsym hab hcd had hbc
        hP1.2.2.1 hP1.2.1 hP2.2.1 hP2.2.2.1 hcross
  · -- flip ≠ 0 : edge1 kept as stored, a = e1.1, b = e1.2
    rcases hEx with ⟨had, hbc⟩
    rw [hE1, hE2] at hsh had hbc ⊢
    set E1 := s.edgeList.get ⟨g s.pos % s.edgeList.length, hi1⟩ with hE1def
    set E2 := s.edgeList.get ⟨g (s.pos + 1) % s.edgeList.length, hi2⟩ with hE2def
    have hd : FourDistinct E1.1 E1.2 E2.1 E2.2 := by
      refine ⟨hP1.1, ?_, ?_, ?_, ?_, hP2.1⟩ <;> (intro he; apply hsh; tauto)
    have hab : s.net E1.1 E1.2 ≠ 0 := hP1.2.2.2
    have hcd : s.net E2.1 E2.2 ≠ 0 := hP2.2.2.2
    obtain ⟨hnet, hlist⟩ := cmAccept_state
      (s := s) (o := g (s.pos + 3) % 2)
      hd.2.1 hd.2.2.1 hd.2.2.2.2.1 hd.2.2.2.2.2
      hI hi2
      (by rw [hE2])
    have hw : (if g (s.pos + 3) % 2 = 0 then s.net E1.1 E1.2 else s.net E2.1 E2.2) ≠ 0 := by
      split_ifs
      · exact hab
      · exact hcd
    have hwp : (if g (s.pos + 3) % 2 = 0 then s.net E2.1 E2.2 else s.net E1.1 E1.2) ≠ 0 := by
      split_ifs
      · exact hcd
      · exact hab
    have hcross : ((if g (s.pos + 3) % 2 = 0 then s.net E1.1 E1.2 else s.net E2.1 E2.2)
          = s.net E1.1 E1.2 ∧
        (if g (s.pos + 3) % 2 = 0 then s.net E2.1 E2.2 else s.net E1.1 E1.2)
          = s.net E2.1 E2.2) ∨
        ((if g (s.pos + 3) % 2 = 0 then s.net E1.1 E1.2 else s.net E2.1 E2.2)
          = s.net E2.1 E2.2 ∧
        (if g (s.pos + 3) % 2 = 0 then s.net E2.1 E2.2 else s.net E1.1 E1.2)
          = s.net E1.1 E1.2) := by
      split_ifs
      · exact Or.inl ⟨rfl, rfl⟩
      · exact Or.inr ⟨rfl, rfl⟩
    have he1s : sameU E1 (E1.1, E1.2) := Or.inl ⟨rfl, rfl⟩
    refine ⟨⟨?_, ?_, ?_, ?_⟩, ?_, ?_⟩
    · rw [show (cmAccept s (g s.pos % s.edgeList.length)
        (g (s.pos + 1) % s.edgeList.length) E1.1 E1.2 E2.1 E2.2
        (g (s.pos + 3) % 2)).net = _ from hnet]
      exact swapNet_symm hsym
    · rw [show (cmAccept s (g s.pos % s.edgeList.length)
        (g (s.pos + 1) % s.edgeList.length) E1.1 E1.2 E2.1 E2.2
        (g (s.pos + 3) % 2)).net = _ from hnet]
      exact swapNet_noSelf hns hd
    · rw [show (cmAccept s (g s.pos % s.edgeList.length)
        (g (s.pos + 1) % s.edgeList.length) E1.1 E1.2 E2.1 E2.2
        (g (s.pos + 3) % 2)).net = _ from hnet]
      exact swapNet_bounded hb hP1.2.1 hP1.2.2.1 hP2.2.1 hP2.2.2.1
    · rw [show (cmAccept s (g s.pos % s.edgeList.length)
        (g (s.pos + 1) % s.edgeList.length) E1.1 E1.2 E2.1 E2.2
        (g (s.pos + 3) % 2)).net = _ from hnet,
        show (cmAccept s (g s.pos % s.edgeList.length)
        (g (s.pos + 1) % s.edgeList.length) E1.1 E1.2 E2.1 E2.2
        (g (s.pos + 3) % 2)).edgeList = _ from hlist]
      exact edgeListOk_accept hok hsym hI hi1 hi2 hd
        he1s rfl had hbc hP1.2.1 hP1.2.2.1 hP2.2.1 hP2.2.2.1 hw hwp
    · intro u
      rw [show (cmAccept s (g s.pos % s.edgeList.length)
        (g (s.pos + 1) % s.edgeList.length) E1.1 E1.2 E2.1 E2.2
        (g (s.pos + 3) % 2)).net = _ from hnet]
      exact swapNet_degree hd hsym hab hcd had hbc hw hwp
        hP1.2.1 hP1.2.2.1 hP2.2.1 hP2.2.2.1 u
    · rw [show (cmAccept s (g s.pos % s.edgeList.length)
        (g (s.pos + 1) % s.edgeList.length) E1.1 E1.2 E2.1 E2.2
        (g (s.pos + 3) % 2)).net = _ from hnet]
      exact swapNet_weightMS hd hsym hab hcd had hbc
        hP1.2.1 hP1.2.2.1 hP2.2.1 hP2.2.2.1 hcross

/-- The edge list built at entry (lines 131-135) is consistent with the
network. -/
lemma buildEdgeList_ok {N : Nat} {f : Nat → Nat → Int}
    (hsym : Symm f) (hns : NoSelf f) (hb : BoundedNet N f) :
    edgeListOk N f (buildEdgeList f N) := by
  refine ⟨?_, ?_, ?_⟩
  · intro p hp
    unfold buildEdgeList at hp
    rw [List.mem_filter] at hp
    obtain ⟨hpl, hpz⟩ := hp
    rw [mem_pairList] at hpl
    simp only [decide_eq_true_eq] at hpz
    exact ⟨by omega, by omega, by omega, hpz⟩
  · intro u v huv
    have hu : u < N := by
      by_contra hcon
      exact huv (hb u v (Or.inl (by omega)))
    have hv : v < N := by
      by_contra hcon
      exact huv (hb u v (Or.inr (by omega)))
    have hne : u ≠ v := fun he => huv (he ▸ hns u)
    rcases Nat.lt_or_ge u v with hlt | hge
    · refine ⟨(u, v), ?_, Or.inl ⟨rfl, rfl⟩⟩
      unfold buildEdgeList
      rw [List.mem_filter, mem_pairList]
      refine ⟨⟨hlt, hu, hv⟩, by simpa using huv⟩
    · refine ⟨(v, u), ?_, Or.inr ⟨rfl, rfl⟩⟩
      unfold buildEdgeList
      rw [List.mem_filter, mem_pairList]
      have hvu : f v u ≠ 0 := by
        rw [hsym v u]
        exact huv
      refine ⟨⟨by omega, hv, hu⟩, by simpa using hvu⟩
  · unfold buildEdgeList
    refine List.Pairwise.filter _ ?_
    have hnodup := pairList_nodup N
    refine List.Pairwise.imp_of_mem ?_ hnodup
    intro p q hp hq hpq hs
    have h1 : p.1 < p.2 := (mem_pairList.1 hp).1
    have h2 : q.1 < q.2 := (mem_pairList.1 hq).1
    rcases hs with ⟨e1, e2⟩ | ⟨e1, e2⟩
    · exact hpq (Prod.ext e1 e2)
    · omega

/-- Iterating stepSimple preserves the invariant, all degrees, and the
multiset of edge weights. -/
lemma runSteps_inv {N : Nat} {g : Nat → Nat} :
    ∀ (k : Nat) (s : CMState), CMInv N s →
      CMInv N (runSteps g k s) ∧
      (∀ u, degree (runSteps g k s).net N u = degree s.net N u) ∧
      weightMS (runSteps g k s).net N = weightMS s.net N
  | 0, s, h => ⟨h, fun u => rfl, rfl⟩
  | k + 1, s, h => by
    have hstep := stepSimple_inv (g := g) h
    have hrec := runSteps_inv (g := g) k (stepSimple g s) hstep.1
    exact ⟨hrec.1, fun u => (hrec.2.1 u).trans (hstep.2.1 u),
      hrec.2.2.trans hstep.2.2⟩

/-- The initial state of a confModelSimple run satisfies the invariant. -/
lemma initCM_inv {N : Nat} {f : Nat → Nat → Int}
    (hsym : Symm f) (hns : NoSelf f) (hb : BoundedNet N f) :
    CMInv N (initCM f N) :=
  ⟨hsym, hns, hb, buildEdgeList_ok hsym hns hb⟩

/-! ### switchLinkPairEnds (Randomizer.H lines 270-331)

The Dijkstrator probe pair (lines 304-318) lives in Dijkstrator.H, outside
the verified source; it is abstracted as a Boolean oracle that looks at the
post-swap network, the two seed nodes, and the limit, and reports whether a
small disconnected component was detected (paths1.finished or
paths2.finished before limit steps).  Every theorem below holds for every
oracle. -/

/-- The assertion at entry of switchLinkPairEnds (line 275):
limit <= netSize && 0 < limit. -/
def switchAssert (limit netSize : Nat) : Bool :=
  decide (limit ≤ netSize) && decide (0 < limit)

/-- Neighbour list of node u within 0..N-1. -/
def nbrsList (f : Nat → Nat → Int) (N u : Nat) : List Nat :=
  (List.range N).filter fun v => decide (f u v ≠ 0)

/-- randKey on the adjacency map of u: the draw value r selects one
existing neighbour.  On a node with no neighbours (excluded by the
preconditions) the result defaults to 0. -/
def randNb (f : Nat → Nat → Int) (N u r : Nat) : Nat :=
  (nbrsList f N u).getD (r % (nbrsList f N u).length) 0

/-- The passing condition of the selection loop (lines 280-287), together
with the two facts the container guarantees for randKey results: m is an
existing neighbour of i and n of j. -/
def selOk (f : Nat → Nat → Int) (i j m n : Nat) : Prop :=
  i ≠ j ∧ m ≠ n ∧ m ≠ j ∧ n ≠ i ∧ f i n = 0 ∧ f j m = 0 ∧ f i m ≠ 0 ∧ f j n ≠ 0

instance (f : Nat → Nat → Int) (i j m n : Nat) : Decidable (selOk f i j m n) := by
  unfold selOk
  infer_instance

/-- The swap (lines 298-301), assignments in source order, the second read
performed on the partially updated network. -/
def doSwitch (f : Nat → Nat → Int) (i j m n : Nat) : Nat → Nat → Int :=
  setW (setW (setW (setW f i n (f i m)) j m ((setW f i n (f i m)) j n)) i m 0) j n 0

/-- The reversal (lines 321-324). -/
def reverseSwitch (f : Nat → Nat → Int) (i j m n : Nat) : Nat → Nat → Int :=
  setW (setW (setW (setW f i m (f i n)) j n ((setW f i m (f i n)) j m)) i n 0) j m 0

lemma setW_pair_comm (f : Nat → Nat → Int) (u v : Nat) (w : Int) :
    setW f u v w = setW f v u w := by
  funext x y
  unfold setW
  by_cases h : (x = u ∧ y = v) ∨ (x = v ∧ y = u)
  · rw [if_pos h, if_pos (by tauto)]
  · rw [if_neg h, if_neg (by tauto)]

lemma doSwitch_eq {f : Nat → Nat → Int} {i j m n : Nat}
    (hij : i ≠ j) (hnj : n ≠ j) :
    doSwitch f i j m n = swapNet f i m j n (f i m) (f j n) := by
  unfold doSwitch swapNet
  rw [setW_ne (by omega), setW_pair_comm _ j m]

lemma reverseSwitch_eq {f : Nat → Nat → Int} {i j m n : Nat}
    (hij : i ≠ j) (hmj : m ≠ j) :
    reverseSwitch f i j m n = swapNet f i n j m (f i n) (f j m) := by
  unfold reverseSwitch swapNet
  rw [setW_ne (by omega), setW_pair_comm _ j n]

set_option maxHeartbeats 2000000 in
/-- Undoing a swap at the swapNet level restores the original network
exactly, provided the two crossing slots were empty before the swap. -/
lemma swapNet_inverse {f : Nat → Nat → Int} {a b c d : Nat}
    (hd : FourDistinct a b c d) (hsym : Symm f)
    (had : f a d = 0) (hbc : f b c = 0) :
    swapNet (swapNet f a b c d (f a b) (f c d)) a d c b (f a b) (f c d) = f := by
  obtain ⟨h1, h2, h3, h4, h5, h6⟩ := hd
  have hs1 : f d c = f c d := hsym d c
  have hs2 : f c b = f b c := hsym c b
  have hs3 : f d a = f a d := hsym d a
  have hs4 : f b a = f a b := hsym b a
  funext x y
  simp only [swapNet, setW]
  split_ifs <;> first
    | rfl
    | omega
    | (simp_all; done)
    | (rename_i hcase
       rcases hcase with ⟨e1, e2⟩ | ⟨e1, e2⟩ <;> subst e1 <;> subst e2 <;> simp_all)

/-- After a legal swap of switchLinkPairEnds, the reversal restores the
network exactly (as a function, hence every adjacency and weight). -/
lemma reverse_doSwitch {f : Nat → Nat → Int} {i j m n : Nat}
    (hsel : selOk f i j m n) (hsym : Symm f) (hns : NoSelf f) :
    reverseSwitch (doSwitch f i j m n) i j m n = f := by
  obtain ⟨hij, hmn, hmj, hni, hin, hjm, him, hjn⟩ := hsel
  have him2 : i ≠ m := fun he => him (by rw [he]; exact hns m)
  have hjn2 : j ≠ n := fun he => hjn (by rw [he]; exact hns n)
  have hd : FourDistinct i m j n := ⟨him2, hij, Ne.symm hni, hmj, hmn, hjn2⟩
  rw [doSwitch_eq hij (Ne.symm hjn2), reverseSwitch_eq hij hmj,
    swapNet_ad hd, swapNet_cb hd]
  exact swapNet_inverse hd hsym hin (by rw [hsym m j]; exact hjm)

/-- One full call of switchLinkPairEnds (lines 272-331), fuelled: each fuel
unit is one candidate draw of (i, j, m, n).  Returns the network after one
accepted switch and the advanced generator cursor, or none if the fuel runs
out.  The return value tries (line 330) is diagnostic only and omitted. -/
def switchRun (g : Nat → Nat) (probeBad : (Nat → Nat → Int) → Nat → Nat → Nat → Bool)
    (N limit : Nat) :
    Nat → (Nat → Nat → Int) → Nat → Option ((Nat → Nat → Int) × Nat)
  | 0, _, _ => none
  | fuel + 1, f, pos =>
    let i := g pos % N
    let j := g (pos + 1) % N
    let m := randNb f N i (g (pos + 2))
    let n := randNb f N j (g (pos + 3))
    if selOk f i j m n then
      if (degree f N i = 1 ∧ degree f N n = 1) ∨
          (degree f N j = 1 ∧ degree f N m = 1) then
        switchRun g probeBad N limit fuel f (pos + 4)
      else
        if probeBad (doSwitch f i j m n) i j limit then
          switchRun g probeBad N limit fuel
            (reverseSwitch (doSwitch f i j m n) i j m n) (pos + 4)
        else some (doSwitch f i j m n, pos + 4)
    else switchRun g probeBad N limit fuel f (pos + 4)

/-- An accepted switch satisfies all the structural facts needed below. -/
lemma doSwitch_facts {N : Nat} {f : Nat → Nat → Int} {i j m n : Nat}
    (hsel : selOk f i j m n) (hsym : Symm f) (hns : NoSelf f) (hb : BoundedNet N f) :
    Symm (doSwitch f i j m n) ∧ NoSelf (doSwitch f i j m n) ∧
    BoundedNet N (doSwitch f i j m n) ∧
    (∀ u, degree (doSwitch f i j m n) N u = degree f N u) ∧
    weightMS (doSwitch f i j m n) N = weightMS f N := by
  obtain ⟨hij, hmn, hmj, hni, hin, hjm, him, hjn⟩ := hsel
  have him2 : i ≠ m := fun he => him (by rw [he]; exact hns m)
  have hjn2 : j ≠ n := fun he => hjn (by rw [he]; exact hns n)
  have hd : FourDistinct i m j n := ⟨him2, hij, Ne.symm hni, hmj, hmn, hjn2⟩
  have hiN : i < N := by
    by_contra hcon
    exact him (hb i m (Or.inl (by omega)))
  have hmN : m < N := by
    by_contra hcon
    exact him (hb i m (Or.inr (by omega)))
  have hjN : j < N := by
    by_contra hcon
    exact hjn (hb j n (Or.inl (by omega)))
  have hnN : n < N := by
    by_contra hcon
    exact hjn (hb j n (Or.inr (by omega)))
  have hmj2 : f m j = 0 := by
    rw [hsym m j]
    exact hjm
  rw [doSwitch_eq hij (Ne.symm hjn2)]
  exact ⟨swapNet_symm hsym, swapNet_noSelf hns hd, swapNet_bounded hb hiN hmN hjN hnN,
    swapNet_degree hd hsym him hjn hin hmj2 him hjn hiN hmN hjN hnN,
    swapNet_weightMS hd hsym him hjn hin hmj2 hiN hmN hjN hnN (Or.inl ⟨rfl, rfl⟩)⟩

/-- A completed switchLinkPairEnds call preserves symmetry, simplicity,
boundedness, every node degree, and the multiset of edge weights. -/
lemma switchRun_inv {g : Nat → Nat} {probeBad : (Nat → Nat → Int) → Nat → Nat → Nat → Bool}
    {N limit : Nat} :
    ∀ (fuel : Nat) (f : Nat → Nat → Int) (pos : Nat)
      (res : (Nat → Nat → Int) × Nat),
      Symm f → NoSelf f → BoundedNet N f →
      switchRun g probeBad N limit fuel f pos = some res →
      Symm res.1 ∧ NoSelf res.1 ∧ BoundedNet N res.1 ∧
      (∀ u, degree res.1 N u = degree f N u) ∧ weightMS res.1 N = weightMS f N := by
  intro fuel
  induction fuel with
  | zero =>
    intro f pos res _ _ _ hrun
    exact absurd hrun (by simp [switchRun])
  | succ fuel ih =>
    intro f pos res hsym hns hb hrun
    simp only [switchRun] at hrun
    split_ifs at hrun with hsel hdeg hprobe
    · exact ih f (pos + 4) res hsym hns hb hrun
    · rw [reverse_doSwitch hsel hsym hns] at hrun
      exact ih f (pos + 4) res hsym hns hb hrun
    · have hfacts := doSwitch_facts (N := N) hsel hsym hns hb
      have hres : res = (doSwitch f (g pos % N) (g (pos + 1) % N)
          (randNb f N (g pos % N) (g (pos + 2)))
          (randNb f N (g (pos + 1) % N) (g (pos + 3))), pos + 4) :=
        (Option.some.injEq _ _ ▸ hrun).symm
      rw [hres]
      exact hfacts
    · exact ih f (pos + 4) res hsym hns hb hrun

/-! ### randomize (Randomizer.H lines 349-475) -/

/-- Modelled from the spec: ConnectivityCheck (used at line 441, defined
outside the verified source) is an exact full-network connectivity check
returning a boolean.  Here: iterate neighbour-closure from node 0 for N
rounds and test whether every node of 0..N-1 was reached; the empty network
counts as connected. -/
def growOnce (f : Nat → Nat → Int) (N : Nat) (vis : List Nat) : List Nat :=
  vis ++ (List.range N).filter fun u =>
    decide (u ∉ vis) && vis.any fun v => decide (f v u ≠ 0)

/-- Modelled from the spec: N-fold iteration of one closure step. -/
def reachClosure (f : Nat → Nat → Int) (N : Nat) : Nat → List Nat → List Nat
  | 0, vis => vis
  | k + 1, vis => reachClosure f N k (growOnce f N vis)

/-- Modelled from the spec: the exact connectivity check. -/
def isConnected (f : Nat → Nat → Int) (N : Nat) : Bool :=
  decide (N = 0) || (List.range N).all fun u => (reachClosure f N N [0]).contains u

/-- The adaptive update of the probe bound (lines 441-458): +5 on a failed
full check; on success, if a disconnection was ever found, -1 with the
small coin probability (next(1.0) < 0.1) and only when limit > 1, otherwise
deterministically -1 when limit > 1. -/
def limitUpdate (connected df coinHit : Bool) (limit : Nat) : Nat :=
  if connected = false then limit + 5
  else if df then (if coinHit ∧ 1 < limit then limit - 1 else limit)
  else if 1 < limit then limit - 1 else limit

/-- Process state of one randomize run: the network, the generator cursor,
the current probe bound, and the disconnectionFound flag. -/
structure RState where
  net : Nat → Nat → Int
  pos : Nat
  limit : Nat
  df : Bool

/-- The inner batch of numLinks accepted switches (lines 430-432). -/
def batchRun (g : Nat → Nat) (probeBad : (Nat → Nat → Int) → Nat → Nat → Nat → Bool)
    (N limit : Nat) :
    Nat → Nat → ((Nat → Nat → Int) × Nat) → Option ((Nat → Nat → Int) × Nat)
  | 0, _, st => some st
  | cnt + 1, fuel, st =>
    match switchRun g probeBad N limit fuel st.1 st.2 with
    | none => none
    | some st2 => batchRun g probeBad N limit cnt fuel st2

/-- The do-while loop of one round (lines 428-459): run the batch, run the
exact check; on failure restore the backup taken at round start, raise the
limit and redo; on success update the limit (consuming one real draw for
the coin when disconnectionFound) and exit.  The coin oracle models
generator.next(1.0) < 0.1. -/
def innerLoop (g : Nat → Nat) (probeBad : (Nat → Nat → Int) → Nat → Nat → Nat → Bool)
    (coin : Nat → Bool) (N numLinks : Nat) (backup : Nat → Nat → Int) :
    Nat → RState → Option RState
  | 0, _ => none
  | fuel + 1, st =>
    match batchRun g probeBad N st.limit numLinks fuel (st.net, st.pos) with
    | none => none
    | some st2 =>
      if isConnected st2.1 N then
        some { net := st2.1, pos := if st.df then st2.2 + 1 else st2.2,
               limit := limitUpdate true st.df (coin st2.2) st.limit, df := st.df }
      else
        innerLoop g probeBad coin N numLinks backup fuel
          { net := backup, pos := st2.2,
            limit := limitUpdate false st.df (coin st2.2) st.limit, df := true }

/-- The outer rounds loop (lines 420-464); the backup is taken at the start
of each round (line 422). -/
def roundsLoop (g : Nat → Nat) (probeBad : (Nat → Nat → Int) → Nat → Nat → Nat → Bool)
    (coin : Nat → Bool) (N numLinks : Nat) :
    Nat → Nat → RState → Option RState
  | 0, _, st => some st
  | r + 1, fuel, st =>
    match innerLoop g probeBad coin N numLinks st.net fuel st with
    | none => none
    | some st2 => roundsLoop g probeBad coin N numLinks r fuel st2

/-- Full randomize call (lines 352-475): numLinks is the edge count of the
input network, fixed for the whole run; limit and the disconnectionFound
flag persist across rounds. -/
def randomize (f : Nat → Nat → Int) (g : Nat → Nat)
    (probeBad : (Nat → Nat → Int) → Nat → Nat → Nat → Bool) (coin : Nat → Bool)
    (N rounds limit fuel : Nat) : Option RState :=
  roundsLoop g probeBad coin N (edgeCount f N) rounds fuel
    { net := f, pos := 0, limit := limit, df := false }

/-- A completed batch preserves the network invariants and all degrees. -/
lemma batchRun_inv {g : Nat → Nat} {probeBad : (Nat → Nat → Int) → Nat → Nat → Nat → Bool}
    {N limit : Nat} :
    ∀ (cnt fuel : Nat) (st res : (Nat → Nat → Int) × Nat),
      Symm st.1 → NoSelf st.1 → BoundedNet N st.1 →
      batchRun g probeBad N limit cnt fuel st = some res →
      Symm res.1 ∧ NoSelf res.1 ∧ BoundedNet N res.1 ∧
      (∀ u, degree res.1 N u = degree st.1 N u) := by
  intro cnt
  induction cnt with
  | zero =>
    intro fuel st res hsym hns hb hrun
    simp only [batchRun, Option.some.injEq] at hrun
    rw [← hrun]
    exact ⟨hsym, hns, hb, fun u => rfl⟩
  | succ cnt ih =>
    intro fuel st res hsym hns hb hrun
    simp only [batchRun] at hrun
    rcases hswitch : switchRun g probeBad N limit fuel st.1 st.2 with _ | st2
    · rw [hswitch] at hrun
      exact absurd hrun (by simp)
    · rw [hswitch] at hrun
      have h1 := switchRun_inv fuel st.1 st.2 st2 hsym hns hb hswitch
      have h2 := ih fuel st2 res h1.1 h1.2.1 h1.2.2.1 hrun
      exact ⟨h2.1, h2.2.1, h2.2.2.1,
        fun u => (h2.2.2.2 u).trans (h1.2.2.2.1 u)⟩

/-- A completed inner loop yields a network passing the exact connectivity
check, with the invariants and degrees of the round-start network (which is
also the backup). -/
lemma innerLoop_inv {g : Nat → Nat} {probeBad : (Nat → Nat → Int) → Nat → Nat → Nat → Bool}
    {coin : Nat → Bool} {N numLinks : Nat} {backup : Nat → Nat → Int} :
    ∀ (fuel : Nat) (st : RState) (res : RState),
      Symm st.net → NoSelf st.net → BoundedNet N st.net →
      Symm backup → NoSelf backup → BoundedNet N backup →
      (∀ u, degree st.net N u = degree backup N u) →
      innerLoop g probeBad coin N numLinks backup fuel st = some res →
      Symm res.net ∧ NoSelf res.net ∧ BoundedNet N res.net ∧
      (∀ u, degree res.net N u = degree backup N u) ∧
      isConnected res.net N = true := by
  intro fuel
  induction fuel with
  | zero =>
    intro st res _ _ _ _ _ _ _ hrun
    exact absurd hrun (by simp [innerLoop])
  | succ fuel ih =>
    intro st res hsym hns hb hsymB hnsB hbB hdeg hrun
    simp only [innerLoop] at hrun
    rcases hbatch : batchRun g probeBad N st.limit numLinks fuel (st.net, st.pos)
      with _ | st2
    · rw [hbatch] at hrun
      exact absurd hrun (by simp)
    · simp only [hbatch] at hrun
      have h1 := batchRun_inv numLinks fuel (st.net, st.pos) st2 hsym hns hb hbatch
      by_cases hconn : isConnected st2.1 N = true
      · rw [if_pos hconn] at hrun
        simp only [Option.some.injEq] at hrun
        rw [← hrun]
        exact ⟨h1.1, h1.2.1, h1.2.2.1,
          fun u => (h1.2.2.2 u).trans (hdeg u), hconn⟩
      · rw [if_neg hconn] at hrun
        exact ih _ res hsymB hnsB hbB hsymB hnsB hbB (fun u => rfl) hrun

/-- A completed rounds loop yields a connected network with the degrees of
the starting network; for zero rounds connectivity comes from the input. -/
lemma roundsLoop_inv {g : Nat → Nat} {probeBad : (Nat → Nat → Int) → Nat → Nat → Nat → Bool}
    {coin : Nat → Bool} {N numLinks : Nat} :
    ∀ (rounds fuel : Nat) (st : RState) (res : RState),
      Symm st.net → NoSelf st.net → BoundedNet N st.net →
      isConnected st.net N = true →
      roundsLoop g probeBad coin N numLinks rounds fuel st = some res →
      Symm res.net ∧ NoSelf res.net ∧ BoundedNet N res.net ∧
      (∀ u, degree res.net N u = degree st.net N u) ∧
      isConnected res.net N = true := by
  intro rounds
  induction rounds with
  | zero =>
    intro fuel st res hsym hns hb hconn hrun
    simp only [roundsLoop, Option.some.injEq] at hrun
    rw [← hrun]
    exact ⟨hsym, hns, hb, fun u => rfl, hconn⟩
  | succ rounds ih =>
    intro fuel st res hsym hns hb hconn hrun
    simp only [roundsLoop] at hrun
    rcases hinner : innerLoop g probeBad coin N numLinks st.net fuel st with _ | st2
    · rw [hinner] at hrun
      exact absurd hrun (by simp)
    · rw [hinner] at hrun
      have h1 := innerLoop_inv fuel st st2 hsym hns hb hsym hns hb (fun u => rfl) hinner
      have h2 := ih fuel st2 res h1.1 h1.2.1 h1.2.2.1 h1.2.2.2.2 hrun
      exact ⟨h2.1, h2.2.1, h2.2.2.1,
        fun u => (h2.2.2.2.1 u).trans (h1.2.2.2.1 u), h2.2.2.2.2⟩

/-! ### Spec-variant selection for the C8 comparison

The specification text for sampleTwoDistinct prescribes retrying the two
index draws until they differ; the following definitions follow the words
of the specification (they are the refinement target, not the source). -/

/-- Follows the words of the specification: draw two indices; on a
coinciding draw, draw again (consuming further generator draws) without
consuming a repeats attempt; fuel bounds the retries. -/
def stepSimpleRetry (g : Nat → Nat) : Nat → CMState → CMState
  | 0, s => s
  | fuel + 1, s =>
    if g s.pos % s.edgeList.length = g (s.pos + 1) % s.edgeList.length then
      stepSimpleRetry g fuel { s with pos := s.pos + 2 }
    else stepSimple g s

/-- Follows the words of the specification: the full sampler with the
retrying selection. -/
def runStepsRetry (g : Nat → Nat) (fuel : Nat) : Nat → CMState → CMState
  | 0, s => s
  | k + 1, s => runStepsRetry g fuel k (stepSimpleRetry g fuel s)

/-! ### Concrete test fixtures for the witnesses -/

/-- Two disjoint edges 0-1 and 2-3 with weight 1 on four nodes. -/
def netW4 : Nat → Nat → Int := fun u v =>
  if (u = 0 ∧ v = 1) ∨ (u = 1 ∧ v = 0) ∨ (u = 2 ∧ v = 3) ∨ (u = 3 ∧ v = 2) then 1 else 0

/-- A single edge 0-1 with weight 1 on two nodes. -/
def netW2 : Nat → Nat → Int := fun u v =>
  if (u = 0 ∧ v = 1) ∨ (u = 1 ∧ v = 0) then 1 else 0

/-- Constant-zero generator stream. -/
def gZero : Nat → Nat := fun _ => 0

/-- Generator stream 0,0,0,1,1,1,... used in the C8 counterexample. -/
def gCE : Nat → Nat := fun k => if k ≤ 2 then 0 else 1

/-- Probe oracle that never reports a disconnection. -/
def probeNever : (Nat → Nat → Int) → Nat → Nat → Nat → Bool := fun _ _ _ _ => false

/-- Probe oracle that always reports a disconnection. -/
def probeAlways : (Nat → Nat → Int) → Nat → Nat → Nat → Bool := fun _ _ _ _ => true

/-- Coin oracle for which next(1.0) < 0.1 never holds. -/
def coinNever : Nat → Bool := fun _ => false

lemma netW4_symm : Symm netW4 := by
  intro u v
  unfold netW4
  split_ifs <;> first | rfl | omega

lemma netW4_noSelf : NoSelf netW4 := by
  intro u
  unfold netW4
  split_ifs <;> first | rfl | omega

lemma netW4_bounded : BoundedNet 4 netW4 := by
  intro u v h
  unfold netW4
  split_ifs <;> first | rfl | omega

lemma netW2_symm : Symm netW2 := by
  intro u v
  unfold netW2
  split_ifs <;> first | rfl | omega

lemma netW2_noSelf : NoSelf netW2 := by
  intro u
  unfold netW2
  split_ifs <;> first | rfl | omega

lemma netW2_bounded : BoundedNet 2 netW2 := by
  intro u v h
  unfold netW2
  split_ifs <;> first | rfl | omega

/-! ### Claim theorems -/

/-- C1: for every completed call to randomize on a connected network
satisfying the preconditions (symmetric, simple, bounded), the final
network passes the exact connectivity check and every node has the same
degree as in the input network. -/
theorem c1_randomize_connected_and_degree_preserving
    (f : Nat → Nat → Int) (g : Nat → Nat)
    (probeBad : (Nat → Nat → Int) → Nat → Nat → Nat → Bool) (coin : Nat → Bool)
    (N rounds limit fuel : Nat) (res : RState)
    (hsym : Symm f) (hns : NoSelf f) (hb : BoundedNet N f)
    (hconn : isConnected f N = true)
    (hrun : randomize f g probeBad coin N rounds limit fuel = some res) :
    isConnected res.net N = true ∧ ∀ u, degree res.net N u = degree f N u := by
  unfold randomize at hrun
  have h := roundsLoop_inv rounds fuel
    { net := f, pos := 0, limit := limit, df := false } res hsym hns hb hconn hrun
  exact ⟨h.2.2.2.2, h.2.2.2.1⟩

/-- C1 witness: a call with zero rounds completes immediately on the
one-edge network and the theorem applies. -/
theorem c1_witness :
    isConnected ({ net := netW2, pos := 0, limit := 15, df := false } : RState).net 2 = true ∧
    degree ({ net := netW2, pos := 0, limit := 15, df := false } : RState).net 2 0
      = degree netW2 2 0 :=
  ⟨(c1_randomize_connected_and_degree_preserving netW2 gZero probeNever coinNever
      2 0 15 1 _ netW2_symm netW2_noSelf netW2_bounded (by decide) rfl).1,
   (c1_randomize_connected_and_degree_preserving netW2 gZero probeNever coinNever
      2 0 15 1 _ netW2_symm netW2_noSelf netW2_bounded (by decide) rfl).2 0⟩

/-- C2: whenever the bounded probe signals disconnection risk after the
swap of edges (i,m),(j,n) to (i,n),(j,m), the reversal restores the
network exactly: every pair of nodes has the same weight (hence the same
edge existence) as immediately before the swap. -/
theorem c2_reversal_is_exact_inverse
    (f : Nat → Nat → Int) (i j m n : Nat)
    (probeBad : (Nat → Nat → Int) → Nat → Nat → Nat → Bool) (limit : Nat)
    (hsel : selOk f i j m n) (hsym : Symm f) (hns : NoSelf f)
    (hprobe : probeBad (doSwitch f i j m n) i j limit = true) :
    ∀ x y, reverseSwitch (doSwitch f i j m n) i j m n x y = f x y := by
  intro x y
  rw [reverse_doSwitch hsel hsym hns]

/-- C2 witness: a concrete swap on the two-edge network, reversed after
the always-bad probe fires. -/
theorem c2_witness :
    reverseSwitch (doSwitch netW4 0 2 1 3) 0 2 1 3 0 1 = netW4 0 1 :=
  c2_reversal_is_exact_inverse netW4 0 2 1 3 probeAlways 1
    (by decide) netW4_symm netW4_noSelf rfl 0 1

/-- C3: at every step of every confModelSimple run on a simple graph the
graph stays simple: the network never contains a self-loop, and the edge
enumeration (the only place a multi-edge could materialise in this
embedding) never lists an edge with equal endpoints nor the same undirected
edge twice. -/
theorem c3_simple_graph_invariant
    (f : Nat → Nat → Int) (g : Nat → Nat) (N k : Nat)
    (hsym : Symm f) (hns : NoSelf f) (hb : BoundedNet N f) :
    NoSelf (runSteps g k (initCM f N)).net ∧
    (∀ p ∈ (runSteps g k (initCM f N)).edgeList, p.1 ≠ p.2) ∧
    List.Pairwise (fun p q => ¬ sameU p q) (runSteps g k (initCM f N)).edgeList := by
  have h := (runSteps_inv (g := g) k (initCM f N) (initCM_inv hsym hns hb)).1
  exact ⟨h.2.1, fun p hp => (h.2.2.2.1 p hp).1, h.2.2.2.2.2⟩

/-- C3 witness: one step on the two-edge network. -/
theorem c3_witness : (runSteps gZero 1 (initCM netW4 4)).net 0 0 = 0 :=
  (c3_simple_graph_invariant netW4 gZero 4 1 netW4_symm netW4_noSelf netW4_bounded).1 0

/-- C4: every run of confModelSimple, for any repeats budget, leaves every
node with the degree it had before the run. -/
theorem c4_degree_sequence_preserved
    (f : Nat → Nat → Int) (g : Nat → Nat) (N repeats : Nat)
    (hsym : Symm f) (hns : NoSelf f) (hb : BoundedNet N f) :
    ∀ u, degree (confModelSimple f N g repeats).net N u = degree f N u := by
  intro u
  exact (runSteps_inv (g := g) repeats (initCM f N) (initCM_inv hsym hns hb)).2.1 u

/-- C4 witness: one attempt on the two-edge network keeps the degree of
node 0. -/
theorem c4_witness :
    degree (confModelSimple netW4 4 gZero 1).net 4 0 = degree netW4 4 0 :=
  c4_degree_sequence_preserved netW4 gZero 4 1 netW4_symm netW4_noSelf netW4_bounded 0

/-- C5: after every step of a confModelSimple run the cached edge list,
read as a set of unordered pairs, equals the edge set of the network:
every entry is a real in-range edge, every edge is listed, and no
undirected edge is listed twice. -/
theorem c5_edge_cache_consistent
    (f : Nat → Nat → Int) (g : Nat → Nat) (N k : Nat)
    (hsym : Symm f) (hns : NoSelf f) (hb : BoundedNet N f) :
    edgeListOk N (runSteps g k (initCM f N)).net (runSteps g k (initCM f N)).edgeList :=
  (runSteps_inv (g := g) k (initCM f N) (initCM_inv hsym hns hb)).1.2.2.2

/-- C5 witness: the pairwise-distinctness part after one step on a
concrete network (the statement is about concrete closed data). -/
theorem c5_witness :
    List.Pairwise (fun p q => ¬ sameU p q) (runSteps gZero 1 (initCM netW4 4)).edgeList :=
  (c5_edge_cache_consistent netW4 gZero 4 1 netW4_symm netW4_noSelf netW4_bounded).2.2

/-- C6: an accepted swap of switchLinkPairEnds removes exactly the edges
(i,m) and (j,n), adds exactly (i,n) and (j,m) carrying the two old
weights, leaves every other unordered pair untouched, and keeps the total
edge count. -/
theorem c6_accepted_switch_frame
    (f : Nat → Nat → Int) (i j m n N : Nat)
    (hsel : selOk f i j m n) (hsym : Symm f) (hns : NoSelf f) (hb : BoundedNet N f) :
    doSwitch f i j m n i m = 0 ∧
    doSwitch f i j m n j n = 0 ∧
    doSwitch f i j m n i n = f i m ∧
    doSwitch f i j m n j m = f j n ∧
    f i m ≠ 0 ∧ f j n ≠ 0 ∧ f i n = 0 ∧ f j m = 0 ∧
    (∀ x y, ¬ sameU (x, y) (i, m) → ¬ sameU (x, y) (j, n) →
      ¬ sameU (x, y) (i, n) → ¬ sameU (x, y) (j, m) →
      doSwitch f i j m n x y = f x y) ∧
    edgeCount (doSwitch f i j m n) N = edgeCount f N := by
  have hsel2 := hsel
  obtain ⟨hij, hmn, hmj, hni, hin, hjm, him, hjn⟩ := hsel2
  have him2 : i ≠ m := fun he => him (by rw [he]; exact hns m)
  have hjn2 : j ≠ n := fun he => hjn (by rw [he]; exact hns n)
  have hd : FourDistinct i m j n := ⟨him2, hij, Ne.symm hni, hmj, hmn, hjn2⟩
  have hde := doSwitch_eq (f := f) (i := i) (j := j) (m := m) (n := n) hij (Ne.symm hjn2)
  have hms := (doSwitch_facts (N := N) hsel hsym hns hb).2.2.2.2
  refine ⟨by rw [hde]; exact swapNet_ab hd, by rw [hde]; exact swapNet_cd hd,
    by rw [hde]; exact swapNet_ad hd, by rw [hde]; exact swapNet_cb hd,
    him, hjn, hin, hjm, ?_, ?_⟩
  · intro x y hxim hxjn hxin hxjm
    rw [hde]
    exact swapNet_frame hxim hxjn hxin (fun hs => hxjm (sameU_comm_pair hs))
  · unfold edgeCount
    have h1 : (weightList (doSwitch f i j m n) N : Multiset Int)
        = (weightList f N : Multiset Int) := hms
    have h2 := congrArg Multiset.card h1
    simpa using h2

/-- C6 witness: the first removed edge is really gone on the concrete
two-edge network. -/
theorem c6_witness : doSwitch netW4 0 2 1 3 0 1 = 0 :=
  (c6_accepted_switch_frame netW4 0 2 1 3 4 (by decide)
    netW4_symm netW4_noSelf netW4_bounded).1

/-- C7: the probe bound update of randomize: +5 on every rollback (also at
the innerLoop call site), on a successful check -1 exactly under the
coin/disconnectionFound guards and only when limit > 1, so a limit that
starts at least 1 never drops below 1. -/
theorem c7_limit_adaptation :
    (∀ df c l, limitUpdate false df c l = l + 5) ∧
    (∀ c l, limitUpdate true true c l = if c ∧ 1 < l then l - 1 else l) ∧
    (∀ c l, limitUpdate true false c l = if 1 < l then l - 1 else l) ∧
    (∀ conn df c l, 1 ≤ l → 1 ≤ limitUpdate conn df c l) ∧
    (∀ (g : Nat → Nat) (probeBad : (Nat → Nat → Int) → Nat → Nat → Nat → Bool)
      (coin : Nat → Bool) (N numLinks : Nat) (backup : Nat → Nat → Int)
      (fuel : Nat) (st : RState) (st2 : (Nat → Nat → Int) × Nat),
      batchRun g probeBad N st.limit numLinks fuel (st.net, st.pos) = some st2 →
      isConnected st2.1 N = false →
      innerLoop g probeBad coin N numLinks backup (fuel + 1) st
        = innerLoop g probeBad coin N numLinks backup fuel
            { net := backup, pos := st2.2, limit := st.limit + 5, df := true }) := by
  refine ⟨?_, ?_, ?_, ?_, ?_⟩
  · intro df c l
    rfl
  · intro c l
    rfl
  · intro c l
    rfl
  · intro conn df c l hl
    unfold limitUpdate
    split_ifs <;> omega
  · intro g probeBad coin N numLinks backup fuel st st2 hbatch hconn
    simp only [innerLoop, hbatch]
    rw [if_neg (by rw [hconn]; simp)]
    rfl

/-- C7 witness: the floor at 1 holds at a concrete input. -/
theorem c7_witness : 1 ≤ 1 ∧ 1 ≤ limitUpdate true false false 1 :=
  ⟨le_refl 1, c7_limit_adaptation.2.2.2.1 true false false 1 (le_refl 1)⟩

/-- C8 counterexample: with the stream 0,0,0,1,... and repeats = 1 on the
two-edge network, the source consumes the single attempt on the
coinciding draw (0 successful swaps), while the retrying selection the
claim describes would retry the draw and perform the swap (1 successful
swap).  The coinciding draw does consume a repeats attempt. -/
theorem c8_counterexample :
    (confModelSimple netW4 4 gCE 1).succ = 0 ∧
    (runStepsRetry gCE 2 1 (initCM netW4 4)).succ = 1 := by
  constructor
  · rfl
  · rfl

/-- C8 amended: when the two drawn indices coincide, confModelSimple does
not retry the draw: the attempt is a no-op apart from the generator cursor
advancing by two, and the round still consumes one of the repeats
attempts. -/
theorem c8_coinciding_draw_consumes_attempt
    (g : Nat → Nat) (s : CMState) (k : Nat)
    (h : g s.pos % s.edgeList.length = g (s.pos + 1) % s.edgeList.length) :
    stepSimple g s = { s with pos := s.pos + 2 } ∧
    runSteps g (k + 1) s = runSteps g k { s with pos := s.pos + 2 } := by
  have h1 : stepSimple g s = { s with pos := s.pos + 2 } := by
    simp only [stepSimple]
    rw [if_pos h]
  refine ⟨h1, ?_⟩
  show runSteps g k (stepSimple g s) = _
  rw [h1]

/-- C8 witness: the constant-zero stream draws index 0 twice. -/
theorem c8_witness :
    stepSimple gZero (initCM netW4 4)
      = { initCM netW4 4 with pos := (initCM netW4 4).pos + 2 } ∧
    runSteps gZero 1 (initCM netW4 4)
      = runSteps gZero 0 { initCM netW4 4 with pos := (initCM netW4 4).pos + 2 } :=
  c8_coinciding_draw_consumes_attempt gZero (initCM netW4 4) 0 (by decide)

/-- C9: the entry assertion of switchLinkPairEnds passes exactly when
1 <= limit and limit <= netSize. -/
theorem c9_entry_assertion_range (limit netSize : Nat) :
    switchAssert limit netSize = true ↔ (1 ≤ limit ∧ limit ≤ netSize) := by
  unfold switchAssert
  simp only [Bool.and_eq_true, decide_eq_true_eq]
  omega

/-- C10: every accepted swap carries the two removed weights onto the two
added edges, so the multiset of edge weights is unchanged by each accepted
swap of switchLinkPairEnds, by every (prefix of a) confModelSimple run,
and by every completed switchLinkPairEnds call. -/
theorem c10_weight_multiset_invariant (N : Nat) :
    (∀ (f : Nat → Nat → Int) (i j m n : Nat), selOk f i j m n → Symm f → NoSelf f →
      BoundedNet N f → weightMS (doSwitch f i j m n) N = weightMS f N) ∧
    (∀ (f : Nat → Nat → Int) (g : Nat → Nat) (k : Nat), Symm f → NoSelf f →
      BoundedNet N f →
      weightMS (runSteps g k (initCM f N)).net N = weightMS f N) ∧
    (∀ (g : Nat → Nat) (probeBad : (Nat → Nat → Int) → Nat → Nat → Nat → Bool)
      (limit fuel : Nat) (f : Nat → Nat → Int) (pos : Nat)
      (res : (Nat → Nat → Int) × Nat), Symm f → NoSelf f → BoundedNet N f →
      switchRun g probeBad N limit fuel f pos = some res →
      weightMS res.1 N = weightMS f N) := by
  refine ⟨?_, ?_, ?_⟩
  · intro f i j m n hsel hsym hns hb
    exact (doSwitch_facts hsel hsym hns hb).2.2.2.2
  · intro f g k hsym hns hb
    exact (runSteps_inv (g := g) k (initCM f N) (initCM_inv hsym hns hb)).2.2
  · intro g probeBad limit fuel f pos res hsym hns hb hrun
    exact (switchRun_inv fuel f pos res hsym hns hb hrun).2.2.2.2

/-- C10 witness: one confModelSimple attempt on the two-edge network keeps
the weight multiset. -/
theorem c10_witness :
    weightMS (runSteps gZero 1 (initCM netW4 4)).net 4 = weightMS netW4 4 :=
  (c10_weight_multiset_invariant 4).2.1 netW4 gZero 1
    netW4_symm netW4_noSelf netW4_bounded

end Randomizer
